import Mathlib

/-!
Verification of the transaction-announcement propagation engine
(`src/txn_propagator.cpp`, class `CTxnPropagator`) against its
natural-language specification.

The engine is shallowly embedded: the mutable members of `CTxnPropagator`
become the fields of `PropagatorState`, each member function becomes a pure
Lean function from state (and inputs) to state (and observable effects such
as the per-peer fan-out calls it issues), the background scheduler thread
becomes a function over the sequence of states it observes at each wake-up,
and the lock-acquisition behaviour of each code path becomes an explicit
event trace.  Transaction identities and transaction references are modelled
as natural numbers; peers are modelled by opaque identifiers (also naturals),
since the spec treats the peer set and per-peer announce state as external
collaborators whose internals are out of scope.
-/

namespace TxnPropagator

/-- Model of `CTxnSendingDetails` (the sending descriptor): a transaction
identity (the txid stored in the descriptor's `CInv`) together with a
reference/handle to the transaction.  Descriptors are immutable value
objects. -/
structure CTxnSendingDetails where
  invId : Nat
  txnRef : Nat
deriving DecidableEq, Repr

/-- Model of `CTransactionRef` as used by `removeTransactions`: the only
operations the source performs on it are `GetId()` (the transaction
identity) and storing the reference itself into a descriptor.  We model the
reference by its identity together with an abstract handle value. -/
structure CTransactionRef where
  txid : Nat
  ref : Nat
deriving DecidableEq, Repr

/-- Identities of a list of descriptors. -/
def idsOf (l : List CTxnSendingDetails) : List Nat :=
  l.map CTxnSendingDetails.invId

/-- Modelled from the spec: `CompareTxnSendingDetails` (constructed from a
`&mempool` in `removeTransactions`) is not part of the file under study; the
spec describes it as a deterministic total order over descriptors derived
from the pool's current view, with ties broken by transaction identity.  We
model the pool-derived component as an arbitrary key function
`mp : Nat → Nat` on identities and compare lexicographically by
`(mp id, id)`; this is a strict total order on identities in which two
descriptors are equivalent exactly when their identities coincide. -/
def compareTxn (mp : Nat → Nat) (a b : CTxnSendingDetails) : Bool :=
  decide (mp a.invId < mp b.invId ∨ (mp a.invId = mp b.invId ∧ a.invId < b.invId))

/-- The non-strict order induced by the comparator (`a` precedes-or-ties
`b`): the ordering in which `std::sort` leaves a range sorted. -/
def leTxn (mp : Nat → Nat) (a b : CTxnSendingDetails) : Bool :=
  !compareTxn mp b a

/-- Model of `std::sort(first, last, comp)` on the descriptor comparator:
insertion sort into non-decreasing `leTxn` order.  The source's sort
algorithm is unspecified beyond its postcondition (a permutation of the
input, sorted by the comparator), which this function satisfies. -/
def insertSorted (le : CTxnSendingDetails → CTxnSendingDetails → Bool)
    (a : CTxnSendingDetails) : List CTxnSendingDetails → List CTxnSendingDetails
  | [] => [a]
  | b :: bs => if le a b then a :: b :: bs else b :: insertSorted le a bs

/-- Sort a descriptor list by the given non-strict order (model of
`std::sort` with `CompareTxnSendingDetails`). -/
def sortByLe (le : CTxnSendingDetails → CTxnSendingDetails → Bool) :
    List CTxnSendingDetails → List CTxnSendingDetails
  | [] => []
  | a :: as => insertSorted le a (sortByLe le as)

/-- Model of `std::set_difference(first1, last1, first2, last2, out, comp)`
as called in `removeTransactions`: assuming both ranges are sorted by the
strict comparator `lt`, copy the elements of the first range that are not
matched by an equivalent element of the second range.  The three branches
mirror the standard algorithm: `*first1 < *first2` copies and advances the
first range, `*first2 < *first1` advances the second, and equivalence
advances both. -/
def setDifference (lt : CTxnSendingDetails → CTxnSendingDetails → Bool) :
    List CTxnSendingDetails → List CTxnSendingDetails → List CTxnSendingDetails
  | [], _ => []
  | x :: xs, [] => x :: xs
  | x :: xs, y :: ys =>
    if lt x y then x :: setDifference lt xs (y :: ys)
    else if lt y x then setDifference lt (x :: xs) ys
    else setDifference lt xs ys
termination_by l1 l2 => l1.length + l2.length

/-- State of a `CTxnPropagator` object: the pending queue `mNewTxns`, the
run frequency `mRunFrequency` (milliseconds), the atomic running flag
`mRunning`, plus observable bookkeeping for the effects the source performs:
`notifyCount` counts `mNewTxnsCV.notify_one()` calls and `joined` records
whether `mNewTxnsThread.join()` has completed. -/
structure PropagatorState where
  mNewTxns : List CTxnSendingDetails
  mRunFrequency : Nat
  mRunning : Bool
  notifyCount : Nat
  joined : Bool
deriving DecidableEq, Repr

/-- State built by the `CTxnPropagator` constructor: empty queue, configured
run frequency, running flag true, background thread launched (not joined),
no condition-variable signals issued yet. -/
def initialState (freq : Nat) : PropagatorState :=
  { mNewTxns := [], mRunFrequency := freq, mRunning := true,
    notifyCount := 0, joined := false }

/-- Model of `CTxnPropagator::getRunFrequency`. -/
def getRunFrequency (s : PropagatorState) : Nat :=
  s.mRunFrequency

/-- Model of `CTxnPropagator::setRunFrequency`: store the new frequency and
wake the processing thread (`mNewTxnsCV.notify_one()`), both under
`mNewTxnsMtx`. -/
def setRunFrequency (s : PropagatorState) (freq : Nat) : PropagatorState :=
  { s with mRunFrequency := freq, notifyCount := s.notifyCount + 1 }

/-- Model of `CTxnPropagator::getNewTxnQueueLength`. -/
def getNewTxnQueueLength (s : PropagatorState) : Nat :=
  s.mNewTxns.length

/-- Model of `CTxnPropagator::newTransaction`: append the descriptor to
`mNewTxns` (`push_back`) under the lock; nothing else is touched and no
condition variable is signalled. -/
def newTransaction (s : PropagatorState) (txn : CTxnSendingDetails) :
    PropagatorState :=
  { s with mNewTxns := s.mNewTxns ++ [txn] }

/-- The descriptor list `txnDetails` that `removeTransactions` builds from
its argument before sorting: one `CTxnSendingDetails` per transaction,
carrying `CInv { MSG_TX, txn->GetId() }` and the transaction reference. -/
def txnDetailsOf (txns : List CTransactionRef) : List CTxnSendingDetails :=
  txns.map (fun t => { invId := t.txid, txnRef := t.ref })

/-- The sorted removal list: `txnDetails` after the `std::sort` performed
under the first `LOCK(mempool.cs)` of `removeTransactions`. -/
def sortedTxnDetails (mp : Nat → Nat) (txns : List CTransactionRef) :
    List CTxnSendingDetails :=
  sortByLe (leTxn mp) (txnDetailsOf txns)

/-- Model of `CTxnPropagator::removeTransactions`: build and sort the
removal list, sort `mNewTxns` by the same comparator, replace `mNewTxns`
with the sorted set-difference, and finally invoke
`node->RemoveTxnsFromInventory(txnDetails)` on every connected peer.  The
returned list records those fan-out calls: one `(peer, argument)` pair per
peer in the snapshot. -/
def removeTransactions (mp : Nat → Nat) (s : PropagatorState)
    (txns : List CTransactionRef) (peers : List Nat) :
    PropagatorState × List (Nat × List CTxnSendingDetails) :=
  let txnDetails := sortedTxnDetails mp txns
  let sortedQueue := sortByLe (leTxn mp) s.mNewTxns
  ({ s with mNewTxns := setDifference (compareTxn mp) sortedQueue txnDetails },
   peers.map (fun p => (p, txnDetails)))

/-- Model of `CTxnPropagator::processNewTransactions`: under the mempool
lock, invoke `node->AddTxnsToInventory(mNewTxns)` on every connected peer
and wait for all of them; then clear `mNewTxns`.  The returned list records
the fan-out calls: one `(peer, batch)` pair per peer in the snapshot. -/
def processNewTransactions (s : PropagatorState) (peers : List Nat) :
    PropagatorState × List (Nat × List CTxnSendingDetails) :=
  ({ s with mNewTxns := [] }, peers.map (fun p => (p, s.mNewTxns)))

/-- Model of `CTxnPropagator::shutdown`: the body runs only if the atomic
compare-and-swap `mRunning.compare_exchange_strong(true, false)` succeeds;
the winner signals the condition variable and joins the background thread.
A call that finds `mRunning` already false returns without touching
anything. -/
def shutdown (s : PropagatorState) : PropagatorState :=
  if s.mRunning then
    { s with mRunning := false, notifyCount := s.notifyCount + 1,
             joined := true }
  else s

/-- Unfolding of the comparator into a proposition. -/
theorem compareTxn_true_iff (mp : Nat → Nat) (a b : CTxnSendingDetails) :
    compareTxn mp a b = true ↔
      mp a.invId < mp b.invId ∨ (mp a.invId = mp b.invId ∧ a.invId < b.invId) := by
  simp [compareTxn]

/-- The comparator depends only on the identities of its arguments. -/
theorem compareTxn_congr (mp : Nat → Nat) {a b : CTxnSendingDetails}
    (h : a.invId = b.invId) (c : CTxnSendingDetails) :
    compareTxn mp a c = compareTxn mp b c ∧ compareTxn mp c a = compareTxn mp c b := by
  simp [compareTxn, h]

/-- Descriptors with equal identities are equivalent under the comparator. -/
theorem compareTxn_irrefl (mp : Nat → Nat) {a b : CTxnSendingDetails}
    (h : a.invId = b.invId) : compareTxn mp a b = false := by
  simp [compareTxn, h]

/-- Equivalence under the comparator forces equal identities: the comparator
is a strict total order on identities. -/
theorem compareTxn_eq_of_not_lt (mp : Nat → Nat) {a b : CTxnSendingDetails}
    (h1 : compareTxn mp a b = false) (h2 : compareTxn mp b a = false) :
    a.invId = b.invId := by
  simp only [compareTxn, decide_eq_false_iff_not, not_or, not_and, not_lt] at h1 h2
  omega

/-- Transitivity of the strict comparator. -/
theorem compareTxn_trans (mp : Nat → Nat) {a b c : CTxnSendingDetails}
    (h1 : compareTxn mp a b = true) (h2 : compareTxn mp b c = true) :
    compareTxn mp a c = true := by
  simp only [compareTxn, decide_eq_true_eq] at h1 h2 ⊢
  omega

/-- Strictly-less composed with not-greater stays strictly less. -/
theorem compareTxn_trans_le (mp : Nat → Nat) {a b c : CTxnSendingDetails}
    (h1 : compareTxn mp a b = true) (h2 : compareTxn mp c b = false) :
    compareTxn mp a c = true := by
  simp only [compareTxn, decide_eq_true_eq, decide_eq_false_iff_not, not_or,
    not_and, not_lt] at h1 h2 ⊢
  omega

/-- The induced non-strict order is transitive. -/
theorem leTxn_trans (mp : Nat → Nat) (a b c : CTxnSendingDetails)
    (h1 : leTxn mp a b = true) (h2 : leTxn mp b c = true) :
    leTxn mp a c = true := by
  simp only [leTxn, Bool.not_eq_true', compareTxn, decide_eq_false_iff_not,
    not_or, not_and, not_lt] at h1 h2 ⊢
  omega

/-- The induced non-strict order is total. -/
theorem leTxn_total (mp : Nat → Nat) (a b : CTxnSendingDetails) :
    leTxn mp a b = true ∨ leTxn mp b a = true := by
  simp only [leTxn, Bool.not_eq_true', compareTxn, decide_eq_false_iff_not,
    not_or, not_and, not_lt]
  omega

/-- Inserting into a list is a permutation of consing onto it. -/
theorem insertSorted_perm (le : CTxnSendingDetails → CTxnSendingDetails → Bool)
    (a : CTxnSendingDetails) :
    ∀ l : List CTxnSendingDetails, (insertSorted le a l).Perm (a :: l) := by
  intro l
  induction l with
  | nil => simp [insertSorted]
  | cons b bs ih =>
    by_cases h : le a b = true
    · simp [insertSorted, h]
    · simp only [insertSorted, if_neg h]
      exact (ih.cons b).trans (List.Perm.swap a b bs)

/-- The model sort returns a permutation of its input, matching the
postcondition of `std::sort`. -/
theorem sortByLe_perm (le : CTxnSendingDetails → CTxnSendingDetails → Bool) :
    ∀ l : List CTxnSendingDetails, (sortByLe le l).Perm l := by
  intro l
  induction l with
  | nil => simp [sortByLe]
  | cons a as ih =>
    exact (insertSorted_perm le a (sortByLe le as)).trans (ih.cons a)

/-- Insertion preserves sortedness for a transitive, total order. -/
theorem insertSorted_pairwise (le : CTxnSendingDetails → CTxnSendingDetails → Bool)
    (htrans : ∀ a b c, le a b = true → le b c = true → le a c = true)
    (htotal : ∀ a b, le a b = true ∨ le b a = true)
    (a : CTxnSendingDetails) (l : List CTxnSendingDetails)
    (hl : l.Pairwise (fun x y => le x y = true)) :
    (insertSorted le a l).Pairwise (fun x y => le x y = true) := by
  induction l with
  | nil => simp [insertSorted]
  | cons b bs ih =>
    rcases List.pairwise_cons.mp hl with ⟨hb, hbs⟩
    by_cases h : le a b = true
    · simp only [insertSorted, if_pos h]
      refine List.pairwise_cons.mpr ⟨?_, hl⟩
      intro x hx
      rcases List.mem_cons.mp hx with heq | hx2
      · exact heq ▸ h
      · exact htrans a b x h (hb x hx2)
    · simp only [insertSorted, if_neg h]
      refine List.pairwise_cons.mpr ⟨?_, ih hbs⟩
      intro x hx
      have hmem := (insertSorted_perm le a bs).mem_iff.mp hx
      rcases List.mem_cons.mp hmem with heq | hx2
      · rcases htotal a b with hab | hba
        · exact absurd hab h
        · exact heq.symm ▸ hba
      · exact hb x hx2

/-- The model sort leaves its output sorted by the supplied order, matching
the postcondition of `std::sort` for a strict-weak-order comparator. -/
theorem sortByLe_pairwise (le : CTxnSendingDetails → CTxnSendingDetails → Bool)
    (htrans : ∀ a b c, le a b = true → le b c = true → le a c = true)
    (htotal : ∀ a b, le a b = true ∨ le b a = true) :
    ∀ l : List CTxnSendingDetails,
      (sortByLe le l).Pairwise (fun x y => le x y = true) := by
  intro l
  induction l with
  | nil => simp [sortByLe]
  | cons a as ih => exact insertSorted_pairwise le htrans htotal a (sortByLe le as) ih

/-- Sorting a descriptor list by the engine's comparator yields a list
sorted in the `leTxn` order. -/
theorem sortByLe_leTxn_sorted (mp : Nat → Nat) (l : List CTxnSendingDetails) :
    (sortByLe (leTxn mp) l).Pairwise (fun x y => leTxn mp x y = true) :=
  sortByLe_pairwise (leTxn mp) (leTxn_trans mp) (leTxn_total mp) l

/-- The set-difference output is a sublist (hence a subsequence) of its
first argument: every survivor is an original queue entry, in order. -/
theorem setDifference_sublist (lt : CTxnSendingDetails → CTxnSendingDetails → Bool) :
    ∀ (l1 l2 : List CTxnSendingDetails), (setDifference lt l1 l2).Sublist l1 := by
  intro l1 l2
  induction l1, l2 using setDifference.induct lt with
  | case1 l2 => simp [setDifference]
  | case2 x xs => simp [setDifference]
  | case3 x xs y ys h ih => simpa [setDifference, h] using ih
  | case4 x xs y ys h h2 ih => simpa [setDifference, h, h2] using ih
  | case5 x xs y ys h h2 ih =>
    simp only [setDifference, if_neg h, if_neg h2]
    exact ih.trans (List.sublist_cons_self x xs)

/-- An element strictly below the head of a sorted list has an identity
different from every identity in that list. -/
theorem id_not_mem_of_lt_head (mp : Nat → Nat) {x y : CTxnSendingDetails}
    {ys : List CTxnSendingDetails} (hlt : compareTxn mp x y = true)
    (hD : (y :: ys).Pairwise (fun a b => leTxn mp a b = true)) :
    x.invId ∉ idsOf (y :: ys) := by
  intro hmem
  simp only [idsOf, List.map_cons, List.mem_cons, List.mem_map] at hmem
  rcases hmem with heq | ⟨z, hz, hzid⟩
  · rw [compareTxn_irrefl mp heq] at hlt
    exact Bool.false_ne_true hlt
  · have hyz : leTxn mp y z = true :=
      (List.pairwise_cons.mp hD).1 z hz
    have hzy : compareTxn mp z y = false := by
      simpa [leTxn, Bool.not_eq_true'] using hyz
    have hxz : compareTxn mp x z = true := compareTxn_trans_le mp hlt hzy
    rw [compareTxn_irrefl mp hzid.symm] at hxz
    exact Bool.false_ne_true hxz

/-- An element strictly below the head of a sorted list has an identity
different from every identity in that list (version for the first range of
the set-difference). -/
theorem id_ne_of_lt_sorted (mp : Nat → Nat) {x y : CTxnSendingDetails}
    {xs : List CTxnSendingDetails} (hlt : compareTxn mp y x = true)
    (hP : (x :: xs).Pairwise (fun a b => leTxn mp a b = true)) :
    ∀ a ∈ x :: xs, a.invId ≠ y.invId := by
  intro a ha heq
  rcases List.mem_cons.mp ha with rfl | ha2
  · rw [compareTxn_irrefl mp heq.symm] at hlt
    exact Bool.false_ne_true hlt
  · have hxa : leTxn mp x a = true := (List.pairwise_cons.mp hP).1 a ha2
    have hax : compareTxn mp a x = false := by
      simpa [leTxn, Bool.not_eq_true'] using hxa
    have hya : compareTxn mp y a = true := compareTxn_trans_le mp hlt hax
    rw [compareTxn_irrefl mp heq.symm] at hya
    exact Bool.false_ne_true hya

/-- Membership in the sorted set-difference: for sorted inputs whose first
range carries no duplicate identities, a descriptor survives exactly when it
is in the first range and its identity is not among the identities of the
second range.  This is the correctness statement for the
`std::sort` + `std::set_difference` combination in `removeTransactions`. -/
theorem mem_setDifference (mp : Nat → Nat) :
    ∀ (P D : List CTxnSendingDetails),
      P.Pairwise (fun a b => leTxn mp a b = true) →
      D.Pairwise (fun a b => leTxn mp a b = true) →
      (idsOf P).Nodup →
      ∀ a, a ∈ setDifference (compareTxn mp) P D ↔
        (a ∈ P ∧ a.invId ∉ idsOf D) := by
  intro P D
  induction P, D using setDifference.induct (compareTxn mp) with
  | case1 D =>
    intro _ _ _ a
    simp [setDifference]
  | case2 x xs =>
    intro _ _ _ a
    simp [setDifference, idsOf]
  | case3 x xs y ys hlt ih =>
    intro hP hD hnd a
    have hndt : (idsOf xs).Nodup := by
      simp only [idsOf, List.map_cons, List.nodup_cons] at hnd
      exact hnd.2
    have ihx := ih (List.Pairwise.of_cons hP) hD hndt
    have hxnot : x.invId ∉ idsOf (y :: ys) := id_not_mem_of_lt_head mp hlt hD
    simp only [setDifference, if_pos hlt, List.mem_cons]
    constructor
    · rintro (rfl | hmem)
      · exact ⟨Or.inl rfl, hxnot⟩
      · rcases (ihx a).mp hmem with ⟨ha, hid⟩
        exact ⟨Or.inr ha, hid⟩
    · rintro ⟨rfl | ha, hid⟩
      · exact Or.inl rfl
      · exact Or.inr ((ihx a).mpr ⟨ha, hid⟩)
  | case4 x xs y ys hnlt hlt ih =>
    intro hP hD hnd a
    have ihx := ih hP (List.Pairwise.of_cons hD) hnd
    have hne := id_ne_of_lt_sorted mp hlt hP
    simp only [setDifference, if_neg hnlt, if_pos hlt]
    rw [ihx a]
    constructor
    · rintro ⟨ha, hid⟩
      refine ⟨ha, ?_⟩
      simp only [idsOf, List.map_cons, List.mem_cons] at hid ⊢
      rintro (heq | hmem)
      · exact hne a ha heq
      · exact hid hmem
    · rintro ⟨ha, hid⟩
      refine ⟨ha, ?_⟩
      simp only [idsOf, List.map_cons, List.mem_cons] at hid ⊢
      intro hmem
      exact hid (Or.inr hmem)
  | case5 x xs y ys hnlt hnlt2 ih =>
    intro hP hD hnd a
    have hxy : x.invId = y.invId :=
      compareTxn_eq_of_not_lt mp (Bool.not_eq_true _ ▸ eq_false_of_ne_true hnlt)
        (eq_false_of_ne_true hnlt2)
    have hndt : (idsOf xs).Nodup := by
      simp only [idsOf, List.map_cons, List.nodup_cons] at hnd
      exact hnd.2
    have hxnotxs : x.invId ∉ idsOf xs := by
      simp only [idsOf, List.map_cons, List.nodup_cons] at hnd
      exact hnd.1
    have ihx := ih (List.Pairwise.of_cons hP) (List.Pairwise.of_cons hD) hndt
    simp only [setDifference, if_neg hnlt, if_neg hnlt2]
    rw [ihx a]
    constructor
    · rintro ⟨ha, hid⟩
      refine ⟨List.mem_cons.mpr (Or.inr ha), ?_⟩
      simp only [idsOf, List.map_cons, List.mem_cons] at hid ⊢
      rintro (heq | hmem)
      · apply hxnotxs
        simp only [idsOf, List.mem_map]
        exact ⟨a, ha, heq.trans hxy.symm⟩
      · exact hid hmem
    · rintro ⟨ha, hid⟩
      rcases List.mem_cons.mp ha with rfl | ha2
      · exact absurd (by
          simp only [idsOf, List.map_cons, List.mem_cons]
          exact Or.inl hxy) hid
      · refine ⟨ha2, ?_⟩
        simp only [idsOf, List.map_cons, List.mem_cons] at hid
        intro hmem
        exact hid (Or.inr hmem)

/-- The identities of the removal descriptors are exactly the identities of
the transactions handed to `removeTransactions`. -/
theorem idsOf_txnDetailsOf (txns : List CTransactionRef) :
    idsOf (txnDetailsOf txns) = txns.map CTransactionRef.txid := by
  simp [idsOf, txnDetailsOf, List.map_map]

/-- Splitting a list's length by a predicate. -/
theorem length_filter_split {α : Type} (p : α → Bool) :
    ∀ l : List α,
      (l.filter p).length + (l.filter (fun a => !p a)).length = l.length := by
  intro l
  induction l with
  | nil => simp
  | cons a as ih =>
    cases h : p a with
    | true =>
      simp [List.filter_cons, h]
      omega
    | false =>
      simp [List.filter_cons, h]
      omega

/-- The queue left behind by `removeTransactions` is, up to the reordering
performed by the sort, exactly the original queue restricted to descriptors
whose identity is not among the identities of the removal transactions. -/
theorem removeTransactions_queue_perm (mp : Nat → Nat) (s : PropagatorState)
    (txns : List CTransactionRef) (peers : List Nat)
    (hnd : (idsOf s.mNewTxns).Nodup) :
    ((removeTransactions mp s txns peers).1.mNewTxns).Perm
      (s.mNewTxns.filter
        (fun d => decide (d.invId ∉ txns.map CTransactionRef.txid))) := by
  have hPperm : (sortByLe (leTxn mp) s.mNewTxns).Perm s.mNewTxns :=
    sortByLe_perm (leTxn mp) s.mNewTxns
  have hDperm : (sortedTxnDetails mp txns).Perm (txnDetailsOf txns) :=
    sortByLe_perm (leTxn mp) (txnDetailsOf txns)
  have hidP : (idsOf (sortByLe (leTxn mp) s.mNewTxns)).Perm (idsOf s.mNewTxns) :=
    hPperm.map CTxnSendingDetails.invId
  have hndP : (idsOf (sortByLe (leTxn mp) s.mNewTxns)).Nodup :=
    (hidP.nodup_iff).mpr hnd
  have hidD : (idsOf (sortedTxnDetails mp txns)).Perm
      (txns.map CTransactionRef.txid) := by
    rw [← idsOf_txnDetailsOf]
    exact hDperm.map CTxnSendingDetails.invId
  have hmem := mem_setDifference mp (sortByLe (leTxn mp) s.mNewTxns)
    (sortedTxnDetails mp txns)
    (sortByLe_leTxn_sorted mp s.mNewTxns)
    (sortByLe_leTxn_sorted mp (txnDetailsOf txns))
    hndP
  have hnodupL : ((removeTransactions mp s txns peers).1.mNewTxns).Nodup := by
    have hsub := setDifference_sublist (compareTxn mp)
      (sortByLe (leTxn mp) s.mNewTxns) (sortedTxnDetails mp txns)
    exact hsub.nodup (hndP.of_map CTxnSendingDetails.invId)
  have hnodupR : (s.mNewTxns.filter
      (fun d => decide (d.invId ∉ txns.map CTransactionRef.txid))).Nodup :=
    (hnd.of_map CTxnSendingDetails.invId).filter _
  refine (List.perm_ext_iff_of_nodup hnodupL hnodupR).mpr ?_
  intro a
  have h1 : a ∈ (removeTransactions mp s txns peers).1.mNewTxns ↔
      (a ∈ sortByLe (leTxn mp) s.mNewTxns ∧
        a.invId ∉ idsOf (sortedTxnDetails mp txns)) := hmem a
  rw [h1, List.mem_filter]
  constructor
  · rintro ⟨ha, hid⟩
    refine ⟨hPperm.mem_iff.mp ha, ?_⟩
    simp only [decide_eq_true_eq]
    intro hc
    exact hid (hidD.mem_iff.mpr hc)
  · rintro ⟨ha, hid⟩
    simp only [decide_eq_true_eq] at hid
    refine ⟨hPperm.mem_iff.mpr ha, ?_⟩
    intro hc
    exact hid (hidD.mem_iff.mp hc)

/-- C1: for every pending queue (with the data model's distinct-identity
invariant) and every removal list, `removeTransactions` replaces the queue
contents with exactly the descriptors whose transaction identity is not
among the identities of the removal list (a membership/multiset statement,
independent of the order of either input); consequently the queue length
immediately afterwards is the original length minus the number of pending
descriptors named for removal, and retracting identities not present in the
pending queue leaves the queue's membership unchanged. -/
theorem retract_set_difference_correct (mp : Nat → Nat) (s : PropagatorState)
    (txns : List CTransactionRef) (peers : List Nat)
    (hnd : (idsOf s.mNewTxns).Nodup) :
    ((removeTransactions mp s txns peers).1.mNewTxns).Perm
        (s.mNewTxns.filter
          (fun d => decide (d.invId ∉ txns.map CTransactionRef.txid))) ∧
    getNewTxnQueueLength (removeTransactions mp s txns peers).1
      = getNewTxnQueueLength s
        - (s.mNewTxns.filter
            (fun d => decide (d.invId ∈ txns.map CTransactionRef.txid))).length ∧
    (∀ (q : List CTxnSendingDetails) (t : List CTransactionRef),
        q.Perm s.mNewTxns → t.Perm txns →
        ((removeTransactions mp { s with mNewTxns := q } t peers).1.mNewTxns).Perm
          ((removeTransactions mp s txns peers).1.mNewTxns)) ∧
    ((∀ t ∈ txns, t.txid ∉ idsOf s.mNewTxns) →
        ((removeTransactions mp s txns peers).1.mNewTxns).Perm s.mNewTxns) := by
  have main := removeTransactions_queue_perm mp s txns peers hnd
  refine ⟨main, ?_, ?_, ?_⟩
  · have hsplit := length_filter_split
      (fun d => decide (d.invId ∈ txns.map CTransactionRef.txid)) s.mNewTxns
    have hcongr : s.mNewTxns.filter
          (fun d => decide (d.invId ∉ txns.map CTransactionRef.txid))
        = s.mNewTxns.filter
          (fun d => !decide (d.invId ∈ txns.map CTransactionRef.txid)) :=
      List.filter_congr (fun x _ => by rw [decide_not])
    have hlen := main.length_eq
    rw [hcongr] at hlen
    simp only [getNewTxnQueueLength]
    omega
  · intro q t hq ht
    have hndq : (idsOf q).Nodup :=
      ((hq.map CTxnSendingDetails.invId).nodup_iff).mpr hnd
    have h1 := removeTransactions_queue_perm mp { s with mNewTxns := q } t peers hndq
    have h2 : (q.filter
          (fun d => decide (d.invId ∉ t.map CTransactionRef.txid))).Perm
        (s.mNewTxns.filter
          (fun d => decide (d.invId ∉ t.map CTransactionRef.txid))) :=
      hq.filter _
    have h3 : s.mNewTxns.filter
          (fun d => decide (d.invId ∉ t.map CTransactionRef.txid))
        = s.mNewTxns.filter
          (fun d => decide (d.invId ∉ txns.map CTransactionRef.txid)) :=
      List.filter_congr (fun x _ =>
        decide_eq_decide.mpr (not_congr ((ht.map CTransactionRef.txid).mem_iff)))
    exact ((h1.trans h2).trans (h3 ▸ List.Perm.refl _)).trans main.symm
  · intro hdisj
    have hself : s.mNewTxns.filter
          (fun d => decide (d.invId ∉ txns.map CTransactionRef.txid))
        = s.mNewTxns := by
      refine List.filter_eq_self.mpr ?_
      intro a ha
      simp only [decide_eq_true_eq]
      intro hc
      rcases List.mem_map.mp hc with ⟨t, htmem, htid⟩
      refine hdisj t htmem ?_
      rw [htid]
      exact List.mem_map.mpr ⟨a, ha, rfl⟩
    exact hself ▸ main

/-- Witness for the C1 theorem at a concrete queue, removal list and peer
snapshot. -/
theorem retract_set_difference_correct_witness :
    (idsOf [⟨2, 20⟩, ⟨1, 10⟩]).Nodup ∧
    ((removeTransactions (fun n => n)
        { mNewTxns := [⟨2, 20⟩, ⟨1, 10⟩], mRunFrequency := 1000,
          mRunning := true, notifyCount := 0, joined := false }
        [⟨1, 10⟩] [7]).1.mNewTxns).Perm
      (([⟨2, 20⟩, ⟨1, 10⟩] : List CTxnSendingDetails).filter
        (fun d => decide
          (d.invId ∉ ([⟨1, 10⟩] : List CTransactionRef).map CTransactionRef.txid))) :=
  ⟨by decide,
    (retract_set_difference_correct (fun n => n)
      { mNewTxns := [⟨2, 20⟩, ⟨1, 10⟩], mRunFrequency := 1000,
        mRunning := true, notifyCount := 0, joined := false }
      [⟨1, 10⟩] [7] (by decide)).1⟩

/-- C10: `removeTransactions` hands every peer's `RemoveTxnsFromInventory`
the entire sorted removal list built from its argument — whose identities
are exactly the identities of all requested transactions, present in the
pending queue or not — and it leaves the surviving pending queue sorted by
the ordering policy's comparator rather than in insertion order. -/
theorem removeTransactions_fanout_full_list (mp : Nat → Nat)
    (s : PropagatorState) (txns : List CTransactionRef) (peers : List Nat) :
    (removeTransactions mp s txns peers).2
        = peers.map (fun p => (p, sortedTxnDetails mp txns)) ∧
    (∀ p ∈ peers,
        (p, sortedTxnDetails mp txns) ∈ (removeTransactions mp s txns peers).2) ∧
    (idsOf (sortedTxnDetails mp txns)).Perm (txns.map CTransactionRef.txid) ∧
    (sortedTxnDetails mp txns).Pairwise (fun a b => leTxn mp a b = true) ∧
    ((removeTransactions mp s txns peers).1.mNewTxns).Pairwise
      (fun a b => leTxn mp a b = true) := by
  refine ⟨rfl, ?_, ?_, sortByLe_leTxn_sorted mp (txnDetailsOf txns), ?_⟩
  · intro p hp
    exact List.mem_map.mpr ⟨p, hp, rfl⟩
  · rw [← idsOf_txnDetailsOf]
    exact (sortByLe_perm (leTxn mp) (txnDetailsOf txns)).map CTxnSendingDetails.invId
  · exact List.Pairwise.sublist
      (setDifference_sublist (compareTxn mp) (sortByLe (leTxn mp) s.mNewTxns)
        (sortedTxnDetails mp txns))
      (sortByLe_leTxn_sorted mp s.mNewTxns)

/-- Witness for the C10 theorem: a concrete peer receives the full sorted
removal list even though neither of its transactions is pending. -/
theorem removeTransactions_fanout_full_list_witness :
    ((3 : Nat), sortedTxnDetails (fun n => n) [⟨4, 40⟩, ⟨2, 20⟩])
      ∈ (removeTransactions (fun n => n) (initialState 7)
          [⟨4, 40⟩, ⟨2, 20⟩] [3]).2 :=
  (removeTransactions_fanout_full_list (fun n => n) (initialState 7)
    [⟨4, 40⟩, ⟨2, 20⟩] [3]).2.1 3 (by decide)

/-- Folding submissions over a state appends all of them, in order. -/
theorem foldl_newTransaction_queue :
    ∀ (ds : List CTxnSendingDetails) (s : PropagatorState),
      (ds.foldl newTransaction s).mNewTxns = s.mNewTxns ++ ds := by
  intro ds
  induction ds with
  | nil => intro s; simp
  | cons d rest ih =>
    intro s
    rw [List.foldl_cons, ih (newTransaction s d)]
    simp [newTransaction]

/-- C7: `newTransaction` appends exactly one descriptor to the end of the
pending queue and signals no wake condition (and touches nothing else), so
any sequence of submissions with distinct identities, starting from the
freshly constructed engine with no intervening dispatch or retract, leaves
the queue length equal to the number of submissions. -/
theorem newTransaction_append_length (s : PropagatorState)
    (d : CTxnSendingDetails) :
    (newTransaction s d).mNewTxns = s.mNewTxns ++ [d] ∧
    (newTransaction s d).notifyCount = s.notifyCount ∧
    (newTransaction s d).mRunning = s.mRunning ∧
    (newTransaction s d).mRunFrequency = s.mRunFrequency ∧
    ∀ (freq : Nat) (ds : List CTxnSendingDetails), (idsOf ds).Nodup →
      getNewTxnQueueLength (ds.foldl newTransaction (initialState freq))
        = ds.length := by
  refine ⟨rfl, rfl, rfl, rfl, ?_⟩
  intro freq ds _
  simp only [getNewTxnQueueLength]
  rw [foldl_newTransaction_queue ds (initialState freq)]
  simp [initialState]

/-- Witness for the C7 theorem at a concrete submission sequence. -/
theorem newTransaction_append_length_witness :
    (newTransaction (initialState 1000) ⟨1, 10⟩).mNewTxns
        = (initialState 1000).mNewTxns ++ [⟨1, 10⟩] ∧
    (idsOf [⟨1, 10⟩, ⟨2, 20⟩]).Nodup ∧
    getNewTxnQueueLength (([⟨1, 10⟩, ⟨2, 20⟩] :
        List CTxnSendingDetails).foldl newTransaction (initialState 5)) = 2 :=
  ⟨(newTransaction_append_length (initialState 1000) ⟨1, 10⟩).1,
   by decide,
   (newTransaction_append_length (initialState 1000) ⟨1, 10⟩).2.2.2.2
     5 [⟨1, 10⟩, ⟨2, 20⟩] (by decide)⟩

/-- C8: `setRunFrequency` stores the given duration as the new run
frequency under the queue's lock and, in the same call, signals the
scheduler's wake condition, so a subsequent `getRunFrequency` returns the
new value and the frequency the scheduler's next wait reads is the new one;
the queue and running flag are untouched. -/
theorem setRunFrequency_stores_and_wakes (s : PropagatorState) (freq : Nat) :
    getRunFrequency (setRunFrequency s freq) = freq ∧
    (setRunFrequency s freq).notifyCount = s.notifyCount + 1 ∧
    (setRunFrequency s freq).mRunFrequency = freq ∧
    (setRunFrequency s freq).mNewTxns = s.mNewTxns ∧
    (setRunFrequency s freq).mRunning = s.mRunning :=
  ⟨rfl, rfl, rfl, rfl, rfl⟩

/-- C3: one dispatch cycle on a non-empty pending queue completes (the
model of the cycle is a total function), announces the full batch to every
peer of the snapshot — the empty peer set yielding a valid no-op fan-out —
and leaves the pending queue empty afterwards. -/
theorem processNewTransactions_dispatch (s : PropagatorState)
    (peers : List Nat) (_hne : s.mNewTxns ≠ []) :
    (processNewTransactions s peers).1.mNewTxns = [] ∧
    (processNewTransactions s peers).2 = peers.map (fun p => (p, s.mNewTxns)) ∧
    (∀ p ∈ peers, (p, s.mNewTxns) ∈ (processNewTransactions s peers).2) ∧
    (processNewTransactions s []).2 = [] := by
  refine ⟨rfl, rfl, ?_, rfl⟩
  intro p hp
  exact List.mem_map.mpr ⟨p, hp, rfl⟩

/-- Witness for the C3 theorem at a concrete non-empty queue and two-peer
snapshot. -/
theorem processNewTransactions_dispatch_witness :
    (([⟨1, 10⟩] : List CTxnSendingDetails) ≠ []) ∧
    (processNewTransactions
        { mNewTxns := [⟨1, 10⟩], mRunFrequency := 1000, mRunning := true,
          notifyCount := 0, joined := false } [4, 9]).1.mNewTxns = [] :=
  ⟨by decide,
   (processNewTransactions_dispatch
      { mNewTxns := [⟨1, 10⟩], mRunFrequency := 1000, mRunning := true,
        notifyCount := 0, joined := false } [4, 9] (by decide)).1⟩

/-- Retraction never introduces a duplicate identity: the surviving queue's
identities stay duplicate-free. -/
theorem removeTransactions_nodup (mp : Nat → Nat) (s : PropagatorState)
    (txns : List CTransactionRef) (peers : List Nat)
    (hnd : (idsOf s.mNewTxns).Nodup) :
    (idsOf (removeTransactions mp s txns peers).1.mNewTxns).Nodup := by
  have hidP : (idsOf (sortByLe (leTxn mp) s.mNewTxns)).Nodup :=
    (((sortByLe_perm (leTxn mp) s.mNewTxns).map
      CTxnSendingDetails.invId).nodup_iff).mpr hnd
  have hsub := (setDifference_sublist (compareTxn mp)
      (sortByLe (leTxn mp) s.mNewTxns) (sortedTxnDetails mp txns)).map
    CTxnSendingDetails.invId
  exact List.Nodup.sublist hsub hidP

/-- C2 (amended): the no-duplicate-identity invariant holds initially and is
preserved by retraction and by dispatch, and by submission provided the
submitted identity is not already pending; `newTransaction` itself performs
no deduplication, so without that proviso a duplicate submission violates
the invariant (see the counterexample theorem). -/
theorem no_duplicate_invariant_preserved :
    (∀ freq : Nat, (idsOf (initialState freq).mNewTxns).Nodup) ∧
    (∀ (s : PropagatorState) (d : CTxnSendingDetails),
        (idsOf s.mNewTxns).Nodup → d.invId ∉ idsOf s.mNewTxns →
        (idsOf (newTransaction s d).mNewTxns).Nodup) ∧
    (∀ (mp : Nat → Nat) (s : PropagatorState) (txns : List CTransactionRef)
        (peers : List Nat), (idsOf s.mNewTxns).Nodup →
        (idsOf (removeTransactions mp s txns peers).1.mNewTxns).Nodup) ∧
    (∀ (s : PropagatorState) (peers : List Nat),
        (idsOf (processNewTransactions s peers).1.mNewTxns).Nodup) := by
  refine ⟨fun freq => by simp [initialState, idsOf], ?_,
    removeTransactions_nodup, fun s peers => by simp [processNewTransactions, idsOf]⟩
  intro s d hnd hfresh
  simp only [newTransaction, idsOf, List.map_append, List.map_cons,
    List.map_nil, List.nodup_append]
  refine ⟨hnd, List.nodup_singleton _, ?_⟩
  intro x hx
  simp only [List.mem_singleton]
  intro heq
  exact hfresh (heq ▸ hx)

/-- Witness for the C2 (amended) theorem: the invariant carried through one
fresh submission, one retraction and one dispatch at concrete inputs. -/
theorem no_duplicate_invariant_preserved_witness :
    (idsOf (newTransaction (initialState 3) ⟨5, 50⟩).mNewTxns).Nodup ∧
    (idsOf (removeTransactions (fun n => n) (initialState 3)
        [⟨1, 10⟩] []).1.mNewTxns).Nodup ∧
    (idsOf (processNewTransactions (initialState 3) [2]).1.mNewTxns).Nodup :=
  ⟨no_duplicate_invariant_preserved.2.1 (initialState 3) ⟨5, 50⟩
      (by decide) (by decide),
   no_duplicate_invariant_preserved.2.2.1 (fun n => n) (initialState 3)
      [⟨1, 10⟩] [] (by decide),
   no_duplicate_invariant_preserved.2.2.2 (initialState 3) [2]⟩

/-- C2 counterexample: `newTransaction` performs no deduplication, so
submitting the same transaction identity twice — a legal sequence of engine
operations — leaves the pending queue with two descriptors sharing one
identity, violating the claimed invariant at that point. -/
theorem duplicate_submission_counterexample :
    ¬ (idsOf (newTransaction (newTransaction (initialState 1000) ⟨5, 50⟩)
        ⟨5, 51⟩).mNewTxns).Nodup := by
  decide

/-- One wake-up of the scheduler loop: the propagator state observed after
`mNewTxnsCV.wait_for` returns (producers, retraction and shutdown run
concurrently, so each wake sees a fresh state), together with the
exception, if any, that the dispatch cycle for this wake would raise
(exceptions are modelled by numeric codes). -/
structure Wake where
  state : PropagatorState
  fail : Option Nat
deriving DecidableEq, Repr

/-- The `while (mRunning)` loop of `threadNewTxnHandler`, inside the `try`
block.  `acc` records the states on which `processNewTransactions` has been
invoked so far.  At each wake: if the running flag is false the inner guard
fails and the `while` condition exits the loop normally; if the queue is
empty nothing is dispatched and the loop waits again; otherwise one
dispatch cycle runs — raising this wake's exception if it has one, which
aborts the loop — and the loop continues.  The second component is the
exception escaping the loop, if any. -/
def newTxnLoop (acc : List PropagatorState) :
    List Wake → List PropagatorState × Option Nat
  | [] => (acc, none)
  | w :: rest =>
    if w.state.mRunning = true then
      if w.state.mNewTxns.isEmpty then newTxnLoop acc rest
      else
        match w.fail with
        | some e => (acc, some e)
        | none => newTxnLoop (acc ++ [w.state]) rest
    else (acc, none)

/-- Model of the `noexcept` function `threadNewTxnHandler`: run the loop
under the `try`; an exception escaping the loop is caught by the
`catch (...)` block at the function boundary, which logs it (second
component `true`) and lets the function return normally.  The model is a
total function into plain pairs: no exception propagates out of the
background execution context. -/
def threadNewTxnHandler (wakes : List Wake) : List PropagatorState × Bool :=
  match newTxnLoop [] wakes with
  | (ds, none) => (ds, false)
  | (ds, some _) => (ds, true)

/-- The dispatch accumulator threads through `newTxnLoop` by prepending. -/
theorem newTxnLoop_acc :
    ∀ (wakes : List Wake) (acc : List PropagatorState),
      newTxnLoop acc wakes
        = (acc ++ (newTxnLoop [] wakes).1, (newTxnLoop [] wakes).2) := by
  intro wakes
  induction wakes with
  | nil => intro acc; simp [newTxnLoop]
  | cons w rest ih =>
    intro acc
    cases hr : w.state.mRunning with
    | false => simp [newTxnLoop, hr]
    | true =>
      cases he : w.state.mNewTxns.isEmpty with
      | true => simp [newTxnLoop, hr, he, ih acc]
      | false =>
        cases hf : w.fail with
        | some e => simp [newTxnLoop, hr, he, hf]
        | none =>
          simp [newTxnLoop, hr, he, hf, ih (acc ++ [w.state]), ih [w.state]]

/-- Every state on which the loop invokes a dispatch cycle was observed at
some wake with the running flag true and a non-empty queue. -/
theorem newTxnLoop_dispatched :
    ∀ (wakes : List Wake) (acc : List PropagatorState),
      ∀ st ∈ (newTxnLoop acc wakes).1,
        st ∈ acc ∨ (st.mRunning = true ∧ st.mNewTxns ≠ [] ∧
          ∃ w ∈ wakes, w.state = st) := by
  intro wakes
  induction wakes with
  | nil =>
    intro acc st hst
    exact Or.inl (by simpa [newTxnLoop] using hst)
  | cons w rest ih =>
    intro acc st hst
    cases hr : w.state.mRunning with
    | false =>
      rw [newTxnLoop, hr] at hst
      simp at hst
      exact Or.inl hst
    | true =>
      cases he : w.state.mNewTxns.isEmpty with
      | true =>
        rw [newTxnLoop, hr] at hst
        simp only [if_true, he] at hst
        rcases ih acc st hst with h | ⟨h1, h2, u, hu, h3⟩
        · exact Or.inl h
        · exact Or.inr ⟨h1, h2, u, List.mem_cons_of_mem w hu, h3⟩
      | false =>
        cases hf : w.fail with
        | some e =>
          rw [newTxnLoop, hr] at hst
          simp only [if_true, he, hf] at hst
          exact Or.inl hst
        | none =>
          rw [newTxnLoop, hr] at hst
          simp only [if_true, he, hf] at hst
          rcases ih (acc ++ [w.state]) st hst with h | ⟨h1, h2, u, hu, h3⟩
          · rcases List.mem_append.mp h with h | h
            · exact Or.inl h
            · have hw : st = w.state := by simpa using h
              refine Or.inr ⟨hw ▸ hr, ?_, w, List.mem_cons_self w rest, hw.symm⟩
              rw [hw]
              intro hnil
              rw [hnil] at he
              simp at he
          · exact Or.inr ⟨h1, h2, u, List.mem_cons_of_mem w hu, h3⟩

/-- C5: the scheduler loop never invokes a dispatch cycle when the running
flag is false or the pending queue is empty — every dispatched state was
observed at a wake with the flag true and a non-empty queue — and a wake
caused by shutdown (running flag now false) exits the loop at once,
dispatching nothing further. -/
theorem scheduler_dispatch_guard (wakes : List Wake) :
    (∀ st ∈ (threadNewTxnHandler wakes).1,
        st.mRunning = true ∧ st.mNewTxns ≠ [] ∧ ∃ w ∈ wakes, w.state = st) ∧
    (∀ (acc : List PropagatorState) (w : Wake) (rest : List Wake),
        w.state.mRunning = false → newTxnLoop acc (w :: rest) = (acc, none)) := by
  constructor
  · intro st hst
    have hmem : st ∈ (newTxnLoop [] wakes).1 := by
      rcases hnl : newTxnLoop [] wakes with ⟨ds, err⟩
      cases err with
      | none => simpa [threadNewTxnHandler, hnl] using hst
      | some e => simpa [threadNewTxnHandler, hnl] using hst
    rcases newTxnLoop_dispatched wakes [] st hmem with h | h
    · exact absurd h (List.not_mem_nil st)
    · exact h
  · intro acc w rest hr
    rw [newTxnLoop, hr]
    simp

/-- Witness for the C5 theorem: a wake whose running flag was cleared by
shutdown makes the loop return immediately with nothing dispatched. -/
theorem scheduler_dispatch_guard_witness :
    newTxnLoop []
        [⟨{ mNewTxns := [⟨1, 10⟩], mRunFrequency := 5, mRunning := false,
            notifyCount := 1, joined := false }, none⟩]
      = ([], none) :=
  (scheduler_dispatch_guard
      [⟨{ mNewTxns := [⟨1, 10⟩], mRunFrequency := 5, mRunning := false,
          notifyCount := 1, joined := false }, none⟩]).2
    [] ⟨{ mNewTxns := [⟨1, 10⟩], mRunFrequency := 5, mRunning := false,
          notifyCount := 1, joined := false }, none⟩ [] rfl

/-- The loop aborted by an exception dispatches exactly the non-empty
batches observed before the failing wake and surfaces the exception. -/
theorem newTxnLoop_error (post : List Wake) (w : Wake) (e : Nat)
    (hrun : w.state.mRunning = true) (hq : w.state.mNewTxns ≠ [])
    (hfail : w.fail = some e) :
    ∀ pre : List Wake, (∀ u ∈ pre, u.state.mRunning = true ∧ u.fail = none) →
      newTxnLoop [] (pre ++ w :: post)
        = ((pre.filter (fun u => !u.state.mNewTxns.isEmpty)).map Wake.state,
            some e) := by
  intro pre
  induction pre with
  | nil =>
    intro _
    have he : w.state.mNewTxns.isEmpty = false := by
      cases hc : w.state.mNewTxns with
      | nil => exact absurd hc hq
      | cons a l => simp [hc]
    simp [newTxnLoop, hrun, he, hfail]
  | cons u pre' ih =>
    intro hpre
    have hu := hpre u (List.mem_cons_self u pre')
    have hrest : ∀ v ∈ pre', v.state.mRunning = true ∧ v.fail = none :=
      fun v hv => hpre v (List.mem_cons_of_mem u hv)
    cases he : u.state.mNewTxns.isEmpty with
    | true =>
      simp [newTxnLoop, hu.1, he, ih hrest, List.filter_cons]
    | false =>
      simp [newTxnLoop, hu.1, hu.2, he,
        newTxnLoop_acc (pre' ++ w :: post) [u.state], ih hrest,
        List.filter_cons]

/-- C6: an exception raised inside a dispatch cycle is caught at the loop
boundary of the `noexcept` `threadNewTxnHandler`: the handler returns
normally with the failure logged (flag `true`), the cycles dispatched are
exactly those of the wakes before the failing one, and — independent of
everything scheduled after the failure — no later wake is processed, so the
failing cycle is never retried and nothing propagates out of the
background context. -/
theorem handler_catches_dispatch_exception (pre post : List Wake) (w : Wake)
    (e : Nat)
    (hpre : ∀ u ∈ pre, u.state.mRunning = true ∧ u.fail = none)
    (hrun : w.state.mRunning = true) (hq : w.state.mNewTxns ≠ [])
    (hfail : w.fail = some e) :
    threadNewTxnHandler (pre ++ w :: post)
      = ((pre.filter (fun u => !u.state.mNewTxns.isEmpty)).map Wake.state,
          true) := by
  rw [threadNewTxnHandler, newTxnLoop_error post w e hrun hq hfail pre hpre]

/-- Witness for the C6 theorem: one clean dispatch, then a failing cycle,
then an abandoned healthy wake. -/
theorem handler_catches_dispatch_exception_witness :
    threadNewTxnHandler
        [⟨{ mNewTxns := [⟨1, 10⟩], mRunFrequency := 5, mRunning := true,
            notifyCount := 0, joined := false }, none⟩,
         ⟨{ mNewTxns := [⟨2, 20⟩], mRunFrequency := 5, mRunning := true,
            notifyCount := 0, joined := false }, some 42⟩,
         ⟨{ mNewTxns := [⟨3, 30⟩], mRunFrequency := 5, mRunning := true,
            notifyCount := 0, joined := false }, none⟩]
      = ([{ mNewTxns := [⟨1, 10⟩], mRunFrequency := 5, mRunning := true,
            notifyCount := 0, joined := false }], true) := by
  have h := handler_catches_dispatch_exception
    [⟨{ mNewTxns := [⟨1, 10⟩], mRunFrequency := 5, mRunning := true,
        notifyCount := 0, joined := false }, none⟩]
    [⟨{ mNewTxns := [⟨3, 30⟩], mRunFrequency := 5, mRunning := true,
        notifyCount := 0, joined := false }, none⟩]
    ⟨{ mNewTxns := [⟨2, 20⟩], mRunFrequency := 5, mRunning := true,
        notifyCount := 0, joined := false }, some 42⟩
    42 (by decide) (by decide) (by decide) (by decide)
  simpa using h

/-- Program counter of a caller executing `shutdown`: the compare-and-swap
on `mRunning`, then — for the winner only — the condition-variable signal
and the blocking `join`, then returned. -/
inductive SPC
  | cas
  | signal
  | joining
  | done
deriving DecidableEq, Repr, Fintype

/-- Interleaving state for two concurrent `shutdown` calls (A and B) racing
against the background thread (T): the atomic `mRunning` flag, the
condition-variable signal, whether the background thread has exited, and
each caller's program counter and CAS outcome. -/
structure ShutdownWorld where
  running : Bool
  notified : Bool
  exited : Bool
  pcA : SPC
  wonA : Bool
  pcB : SPC
  wonB : Bool
deriving DecidableEq, Repr

/-- The interleaving state is equivalent to a finite product, so it is
finite and universally-quantified facts over it are decidable. -/
def shutdownWorldEquiv :
    ShutdownWorld ≃ Bool × Bool × Bool × SPC × Bool × SPC × Bool where
  toFun w := (w.running, w.notified, w.exited, w.pcA, w.wonA, w.pcB, w.wonB)
  invFun p :=
    { running := p.1, notified := p.2.1, exited := p.2.2.1, pcA := p.2.2.2.1,
      wonA := p.2.2.2.2.1, pcB := p.2.2.2.2.2.1, wonB := p.2.2.2.2.2.2 }
  left_inv _ := rfl
  right_inv _ := rfl

instance : Fintype ShutdownWorld :=
  Fintype.ofEquiv _ shutdownWorldEquiv.symm

/-- Thread identifiers for the shutdown interleaving: the two shutdown
callers and the background thread. -/
inductive Tid
  | A
  | B
  | T
deriving DecidableEq, Repr, Fintype

/-- One atomic step of shutdown caller A.  The CAS
`mRunning.compare_exchange_strong(true, false)` either wins — clearing the
flag and proceeding to the stop sequence — or loses, in which case the call
returns immediately.  The winner signals the condition variable and then
blocks in `join` until the background thread has exited. -/
def stepA (w : ShutdownWorld) : ShutdownWorld :=
  match w.pcA with
  | SPC.cas =>
    if w.running then { w with running := false, wonA := true, pcA := SPC.signal }
    else { w with pcA := SPC.done }
  | SPC.signal => { w with notified := true, pcA := SPC.joining }
  | SPC.joining => if w.exited then { w with pcA := SPC.done } else w
  | SPC.done => w

/-- One atomic step of shutdown caller B; identical program to caller A. -/
def stepB (w : ShutdownWorld) : ShutdownWorld :=
  match w.pcB with
  | SPC.cas =>
    if w.running then { w with running := false, wonB := true, pcB := SPC.signal }
    else { w with pcB := SPC.done }
  | SPC.signal => { w with notified := true, pcB := SPC.joining }
  | SPC.joining => if w.exited then { w with pcB := SPC.done } else w
  | SPC.done => w

/-- One atomic step of the scheduled thread: the background loop keeps
waiting while `mRunning` holds and exits once it observes the flag cleared
(its timed wait always wakes it eventually). -/
def stepThread (w : ShutdownWorld) : Tid → ShutdownWorld
  | Tid.A => stepA w
  | Tid.B => stepB w
  | Tid.T => if w.running then w else { w with exited := true }

/-- Initial interleaving state: engine running, both callers about to
attempt the CAS, background thread alive. -/
def shutdownInit : ShutdownWorld :=
  { running := true, notified := false, exited := false,
    pcA := SPC.cas, wonA := false, pcB := SPC.cas, wonB := false }

/-- Execute an arbitrary interleaving of the three threads. -/
def runShutdown (sched : List Tid) : ShutdownWorld :=
  sched.foldl stepThread shutdownInit

/-- Safety invariant of the shutdown race: at most one caller ever wins the
CAS, a caller past the CAS holds the win, a winning caller reaches `done`
only after the thread has exited, a losing caller can only have lost
because the flag was already cleared by a winner, and the background
thread outlives any state in which the flag is still set. -/
abbrev ShutdownInv (w : ShutdownWorld) : Prop :=
  (w.running = true → w.wonA = false ∧ w.wonB = false ∧ w.exited = false) ∧
  (w.running = false → (w.wonA || w.wonB) = true) ∧
  ¬(w.wonA = true ∧ w.wonB = true) ∧
  ((w.pcA = SPC.signal ∨ w.pcA = SPC.joining) → w.wonA = true) ∧
  ((w.pcB = SPC.signal ∨ w.pcB = SPC.joining) → w.wonB = true) ∧
  (w.pcA = SPC.done → w.wonA = true → w.exited = true) ∧
  (w.pcB = SPC.done → w.wonB = true → w.exited = true) ∧
  (w.pcA = SPC.done → w.wonA = false → w.running = false) ∧
  (w.pcB = SPC.done → w.wonB = false → w.running = false) ∧
  (w.pcA = SPC.cas → w.wonA = false) ∧
  (w.pcB = SPC.cas → w.wonB = false)

set_option synthInstance.maxSize 2000 in
set_option maxRecDepth 8000 in
/-- Every atomic step preserves the shutdown safety invariant. -/
theorem shutdownInv_step :
    ∀ (w : ShutdownWorld) (t : Tid), ShutdownInv w → ShutdownInv (stepThread w t) := by
  decide

/-- The invariant holds after any interleaving that starts in an
invariant state. -/
theorem shutdownInv_foldl :
    ∀ (sched : List Tid) (w : ShutdownWorld),
      ShutdownInv w → ShutdownInv (sched.foldl stepThread w) := by
  intro sched
  induction sched with
  | nil => intro w hw; exact hw
  | cons t rest ih =>
    intro w hw
    exact ih (stepThread w t) (shutdownInv_step w t hw)

/-- The invariant holds along every schedule from the initial state. -/
theorem shutdownInv_run (sched : List Tid) : ShutdownInv (runShutdown sched) :=
  shutdownInv_foldl sched shutdownInit (by decide)

/-- C4 counterexample: with two concurrent `shutdown` calls, the caller
that loses the compare-and-swap returns immediately.  After the concrete
schedule [A's CAS, B's CAS], caller B has already returned while the
background execution context has not yet exited — contradicting the claim
that every shutdown call returns only after the background context has
fully exited. -/
theorem shutdown_loser_returns_early :
    (runShutdown [Tid.A, Tid.B]).pcB = SPC.done ∧
    (runShutdown [Tid.A, Tid.B]).exited = false := by
  decide

/-- C4 (amended): shutdown is idempotent and its stop sequence runs exactly
once: under every interleaving of two shutdown calls with the background
thread, at most one caller wins the compare-and-swap; if both calls have
returned, exactly one of them won (so the stop sequence — signal then join
— executed exactly once); the winning call returns only after the
background context has fully exited; and sequentially, a shutdown call
after the flag transition is a no-op, so repeated calls equal a single
one.  (A concurrent call losing the CAS, however, may return before the
background context exits — see the counterexample.) -/
theorem shutdown_cas_exactly_once (sched : List Tid) :
    ((runShutdown sched).wonA && (runShutdown sched).wonB) = false ∧
    ((runShutdown sched).pcA = SPC.done → (runShutdown sched).pcB = SPC.done →
        ((runShutdown sched).wonA ^^ (runShutdown sched).wonB) = true) ∧
    ((runShutdown sched).wonA = true → (runShutdown sched).pcA = SPC.done →
        (runShutdown sched).exited = true) ∧
    ((runShutdown sched).wonB = true → (runShutdown sched).pcB = SPC.done →
        (runShutdown sched).exited = true) ∧
    (∀ s : PropagatorState, s.mRunning = false → shutdown s = s) ∧
    (∀ s : PropagatorState, shutdown (shutdown s) = shutdown s) := by
  have hinv := shutdownInv_run sched
  rcases hinv with ⟨h1, h2, h3, _h4, _h5, h6, h7, h8, h9, _h10, _h11⟩
  refine ⟨?_, ?_, fun hw hd => h6 hd hw, ?_, ?_, ?_⟩
  · cases ha : (runShutdown sched).wonA with
    | false => simp
    | true =>
      cases hb : (runShutdown sched).wonB with
      | false => simp
      | true => exact absurd ⟨ha, hb⟩ h3
  · intro hda hdb
    cases ha : (runShutdown sched).wonA with
    | true =>
      cases hb : (runShutdown sched).wonB with
      | false => simp
      | true => exact absurd ⟨ha, hb⟩ h3
    | false =>
      have hrun := h8 hda ha
      have hwon := h2 hrun
      rw [ha] at hwon
      simp at hwon
      simp [ha, hwon]
  · exact fun hb hd => h7 hd hb
  · intro s hs
    simp [shutdown, hs]
  · intro s
    cases hs : s.mRunning with
    | false => simp [shutdown, hs]
    | true => simp [shutdown, hs]

/-- Witness for the C4 (amended) theorem: a schedule in which the winner
completes — CAS, signal, thread exit, join — so the winning call's return
implies the background context exited; plus the sequential no-op facts. -/
theorem shutdown_cas_exactly_once_witness :
    (runShutdown [Tid.A, Tid.A, Tid.T, Tid.A]).exited = true ∧
    shutdown (shutdown (initialState 9)) = shutdown (initialState 9) :=
  ⟨(shutdown_cas_exactly_once [Tid.A, Tid.A, Tid.T, Tid.A]).2.2.1
      (by decide) (by decide),
   (shutdown_cas_exactly_once []).2.2.2.2.2 (initialState 9)⟩

/-- Acquisition and release events on the engine's two locks: the queue's
own mutex `mNewTxnsMtx` and the pool's lock `mempool.cs`. -/
inductive LockEvent
  | acqQueue
  | relQueue
  | acqPool
  | relPool
deriving DecidableEq, Repr

/-- Simulate a lock-event trace, tracking whether each lock is held.  The
simulation reports `false` as soon as the trace acquires the queue lock
while the pool lock is held — the reverse of the engine's declared order —
so a `true` result certifies that whenever both locks are held, the queue
lock was taken first. -/
def lockOrderOk (hq hp : Bool) : List LockEvent → Bool
  | [] => true
  | e :: rest =>
    match e with
    | LockEvent.acqQueue => if hp then false else lockOrderOk true hp rest
    | LockEvent.relQueue => lockOrderOk false hp rest
    | LockEvent.acqPool => lockOrderOk hq true rest
    | LockEvent.relPool => lockOrderOk hq false rest

/-- Lock events of `removeTransactions`, in source order: the sort of the
removal list under `LOCK(mempool.cs)` alone; the filter block taking
`mNewTxnsMtx` first and then `mempool.cs` (released in reverse scope
order); and the per-node fan-out block under `mempool.cs` alone. -/
def removeTransactionsLockTrace : List LockEvent :=
  [LockEvent.acqPool, LockEvent.relPool,
   LockEvent.acqQueue, LockEvent.acqPool, LockEvent.relPool, LockEvent.relQueue,
   LockEvent.acqPool, LockEvent.relPool]

/-- Lock events of one iteration of the `threadNewTxnHandler` loop: take
`mNewTxnsMtx`; `wait_for` releases it while sleeping and reacquires it on
wake; a dispatching iteration then runs `processNewTransactions`, which
takes and releases `mempool.cs` while still holding the queue lock; the
iteration's scope finally releases the queue lock. -/
def handlerIterLockTrace (dispatch : Bool) : List LockEvent :=
  [LockEvent.acqQueue, LockEvent.relQueue, LockEvent.acqQueue] ++
    (if dispatch then [LockEvent.acqPool, LockEvent.relPool] else []) ++
  [LockEvent.relQueue]

/-- Lock events of a whole scheduler-loop execution, one entry of the
argument per iteration stating whether that iteration dispatched. -/
def threadNewTxnHandlerLockTrace : List Bool → List LockEvent
  | [] => []
  | d :: ds => handlerIterLockTrace d ++ threadNewTxnHandlerLockTrace ds

/-- Lock events of each of the remaining engine operations touching a
lock — `getRunFrequency`, `setRunFrequency`, `getNewTxnQueueLength`,
`newTransaction`, and the winning path of `shutdown` — all of which take
only `mNewTxnsMtx`. -/
def queueOnlyLockTrace : List LockEvent :=
  [LockEvent.acqQueue, LockEvent.relQueue]

/-- C9: in every code path of the engine, the queue lock is never acquired
while the pool lock is held, so whenever both locks are held
simultaneously the queue's lock was acquired first: this holds for
`removeTransactions`, for every execution of the scheduler loop (with any
pattern of dispatching and idle iterations, covering
`processNewTransactions` under the loop's queue lock), and for the
queue-lock-only operations. -/
theorem lock_order_respected :
    lockOrderOk false false removeTransactionsLockTrace = true ∧
    lockOrderOk false false queueOnlyLockTrace = true ∧
    ∀ ds : List Bool,
      lockOrderOk false false (threadNewTxnHandlerLockTrace ds) = true := by
  refine ⟨by decide, by decide, ?_⟩
  intro ds
  induction ds with
  | nil => decide
  | cons d rest ih =>
    cases d with
    | false =>
      simpa [threadNewTxnHandlerLockTrace, handlerIterLockTrace, lockOrderOk]
        using ih
    | true =>
      simpa [threadNewTxnHandlerLockTrace, handlerIterLockTrace, lockOrderOk]
        using ih

end TxnPropagator
